import Mathlib

/-!
Shallow embedding of `src/gen.py` (polymer generator and statistics).

Modelling conventions:
* A polymer string is a `List Char` (Python `str` indexed left to right).
* Python floats are modelled as exact rationals `ℚ`; `int(x)` on a float is
  truncation toward zero (`pyTrunc`), and `np.sqrt`/`np.std` land in `ℝ`.
* The global numpy random source is passed explicitly: `gIdx` stands for the
  output of `np.random.choice(n, k, replace=False)` (a list of distinct
  indices below `n` of length `k`), and `coins i` for the i-th draw of
  `np.random.random()` (a real in `[0, 1)`).
* Fallible code returns `Except`: `np.random.choice` raises `ValueError`
  exactly when the requested sample size is negative or exceeds the
  population, and `calc_ratio`'s `/` raises `ZeroDivisionError` on a zero
  denominator.
-/

/-- Error raised by `numpy` out of `np.random.choice` when the sample size is
invalid (negative, or larger than the population with `replace=False`). -/
inductive GenError where
  | valueError
deriving DecidableEq

/-- Error raised by Python's `/` on a zero denominator. -/
inductive RatioError where
  | divisionByZero
deriving DecidableEq

/-- Python `int(q)` on a float/rational: truncation toward zero. -/
def pyTrunc (q : ℚ) : ℤ :=
  if 0 ≤ q then ⌊q⌋ else -⌊-q⌋

/-- The string-building loop of `gen` (`src/gen.py` lines 42-49): for each
`i in range(n)` append `"G"`/`"L"` (non-dimer) or `"GG"`/`"LL"` (dimer),
where `pos i` is `polymer_pos[i] == 1`. -/
def genChars (n : ℕ) (dimers : Bool) (pos : ℕ → Bool) : List Char :=
  (List.range n).flatMap fun i =>
    if dimers then (if pos i then ['G', 'G'] else ['L', 'L'])
    else (if pos i then ['G'] else ['L'])

/-- `gen` from `src/gen.py` lines 3-51, parameterized by the random draws.
`n` is halved first in dimer mode (`n = int(n / 2)`).  In fixed mode the
sample size passed to `np.random.choice` is `int(n * g_prob)`; the call
raises `ValueError` unless `0 ≤ k ≤ n`, and otherwise `polymer_pos[i] == 1`
iff `i ∈ gIdx`.  In Bernoulli mode `polymer_pos[i] == 1` iff
`np.random.random() < g_prob` at position `i`. -/
def gen (n : ℕ) (gProb : ℚ) (fixed : Bool) (dimers : Bool)
    (gIdx : List ℕ) (coins : ℕ → ℚ) : Except GenError (List Char) :=
  let m := if dimers then n / 2 else n
  if fixed then
    let k := pyTrunc ((m : ℚ) * gProb)
    if 0 ≤ k ∧ k.toNat ≤ m then
      Except.ok (genChars m dimers fun i => decide (i ∈ gIdx))
    else
      Except.error GenError.valueError
  else
    Except.ok (genChars m dimers fun i => decide (coins i < gProb))

/-- One iteration of the counting loop of `calc_stats` (`src/gen.py` lines
66-74): four independent `if`s, each bumping its counter when the ordered
pair `(polymer[i], polymer[i+1])` matches. -/
def statStep (p : List Char) (acc : ℕ × ℕ × ℕ × ℕ) (i : ℕ) : ℕ × ℕ × ℕ × ℕ :=
  (acc.1 + (if p.getD i ' ' = 'G' ∧ p.getD (i + 1) ' ' = 'G' then 1 else 0),
   acc.2.1 + (if p.getD i ' ' = 'L' ∧ p.getD (i + 1) ' ' = 'L' then 1 else 0),
   acc.2.2.1 + (if p.getD i ' ' = 'G' ∧ p.getD (i + 1) ' ' = 'L' then 1 else 0),
   acc.2.2.2 + (if p.getD i ' ' = 'L' ∧ p.getD (i + 1) ' ' = 'G' then 1 else 0))

/-- `calc_stats` from `src/gen.py` lines 53-76: scan `i in range(n - 1)` and
return `(num_GGs, num_LLs, num_GLs, num_LGs)`. -/
def calc_stats (p : List Char) : ℕ × ℕ × ℕ × ℕ :=
  (List.range (p.length - 1)).foldl (statStep p) (0, 0, 0, 0)

/-- `calc_ratio` from `src/gen.py` lines 78-91: `polymer.count('G') /
polymer.count('L')`, with Python's `ZeroDivisionError` when the `L` count is
zero; the successful float quotient is modelled exactly in `ℚ`. -/
def calc_ratio (p : List Char) : Except RatioError ℚ :=
  let num_Gs := p.count 'G'
  let num_Ls := p.count 'L'
  if num_Ls = 0 then Except.error RatioError.divisionByZero
  else Except.ok ((num_Gs : ℚ) / (num_Ls : ℚ))

/-- Total of the four pair counters. -/
def sum4 (t : ℕ × ℕ × ℕ × ℕ) : ℕ :=
  t.1 + t.2.1 + t.2.2.1 + t.2.2.2

/-- How many of the four counters of `calc_stats` a single ordered pair
`(a, b)` is added to. -/
def pairTally (a b : Char) : ℕ :=
  (if a = 'G' ∧ b = 'G' then 1 else 0) + (if a = 'L' ∧ b = 'L' then 1 else 0)
    + (if a = 'G' ∧ b = 'L' then 1 else 0) + (if a = 'L' ∧ b = 'G' then 1 else 0)

/-- `np.mean` over a batch array, modelled on exact rationals. -/
def mean (xs : List ℚ) : ℚ :=
  xs.sum / (xs.length : ℚ)

/-- The radicand of `np.std`: the population variance
`mean(abs(x - x.mean())**2)` (numpy default `ddof=0`). -/
def popVar (xs : List ℚ) : ℚ :=
  mean (xs.map fun x => (x - mean xs) ^ 2)

/-- `np.std`, the population standard deviation. -/
noncomputable def npStd (xs : List ℚ) : ℝ :=
  Real.sqrt ((popVar xs : ℚ) : ℝ)

/-- The SEM formula of the report in `main`: `np.std(xs) / np.sqrt(N - 1)`. -/
noncomputable def sem (xs : List ℚ) (count : ℕ) : ℝ :=
  npStd xs / Real.sqrt ((count : ℝ) - 1)

/-- One conditional in-place update of the zero-correction loop of `main`
(`src/gen.py` lines 137-141): `if xs[i] == 0: xs[i] = 1`. -/
def zeroCorrectStep (xs : List ℚ) (i : ℕ) : List ℚ :=
  if xs.getD i 0 = 0 then xs.set i 1 else xs

/-- The zero-correction loop of `main` (`src/gen.py` lines 136-141): for each
`i in range(len(LGs))`, correct `LGs[i]` then `GLs[i]` in place. -/
def correct0s (LGs GLs : List ℚ) : List ℚ × List ℚ :=
  (List.range LGs.length).foldl
    (fun st i => (zeroCorrectStep st.1 i, zeroCorrectStep st.2 i)) (LGs, GLs)

/-- The zero-correction pass as the spec words it: every zero entry of the
array is replaced with 1 (an elementwise map, for comparison with the
in-place loop `correct0s` of the source). -/
def zeroCorrect (xs : List ℚ) : List ℚ :=
  xs.map fun x => if x = 0 then 1 else x

/-- The derived-metric block of `main` (`src/gen.py` lines 136-153), run on
the per-trial count arrays: after the zero-correction loop, report
mean/SEM of `LLs / LGs + 1`, of `GGs / GLs + 1`, of `GGs / GLs`, and the
mean of the `ratios` list (numpy array ops are elementwise). -/
noncomputable def otherMetrics (GGs LLs GLs LGs ratios : List ℚ) (count : ℕ) :
    (ℚ × ℝ) × (ℚ × ℝ) × (ℚ × ℝ) × ℚ :=
  let c := correct0s LGs GLs
  let lL := (List.zipWith (· / ·) LLs c.1).map (· + 1)
  let lG := (List.zipWith (· / ·) GGs c.2).map (· + 1)
  let rc := List.zipWith (· / ·) GGs c.2
  ((mean lL, sem lL count), (mean lG, sem lG count), (mean rc, sem rc count),
    mean ratios)

/-- The derived-metric block as the spec words it: elementwise
`L_L = LL/LG + 1`, `L_G = GG/GL + 1`, `R_c = GG/GL` over the
map-style zero-corrected arrays, plus the mean per-sequence G:L ratio. -/
noncomputable def otherMetricsSpec (GGs LLs GLs LGs ratios : List ℚ) (count : ℕ) :
    (ℚ × ℝ) × (ℚ × ℝ) × (ℚ × ℝ) × ℚ :=
  let lgC := zeroCorrect LGs
  let glC := zeroCorrect GLs
  let lL := (List.zipWith (· / ·) LLs lgC).map (· + 1)
  let lG := (List.zipWith (· / ·) GGs glC).map (· + 1)
  let rc := List.zipWith (· / ·) GGs glC
  ((mean lL, sem lL count), (mean lG, sem lG count), (mean rc, sem rc count),
    mean ratios)

theorem foldl_pair_independent {α β γ : Type} (f : α → γ → α) (g : β → γ → β)
    (l : List γ) (a : α) (b : β) :
    l.foldl (fun st i => (f st.1 i, g st.2 i)) (a, b) = (l.foldl f a, l.foldl g b) := by
  induction l generalizing a b with
  | nil => rfl
  | cons x xs ih => simpa using ih (f a x) (g b x)

theorem length_zeroCorrectStep (xs : List ℚ) (i : ℕ) :
    (zeroCorrectStep xs i).length = xs.length := by
  unfold zeroCorrectStep
  split <;> simp

theorem zeroCorrectStep_oob (xs : List ℚ) (i : ℕ) (hi : xs.length ≤ i) :
    zeroCorrectStep xs i = xs := by
  unfold zeroCorrectStep
  split
  · exact List.set_eq_of_length_le hi
  · rfl

theorem getD_zeroCorrectStep_self (xs : List ℚ) (i : ℕ) (hi : i < xs.length) :
    (zeroCorrectStep xs i).getD i 0 = if xs.getD i 0 = 0 then 1 else xs.getD i 0 := by
  unfold zeroCorrectStep
  by_cases h : xs.getD i 0 = 0
  · rw [if_pos h, if_pos h]
    have hlen : i < (xs.set i 1).length := by
      rw [List.length_set]
      exact hi
    rw [List.getD_eq_getElem _ _ hlen]
    exact List.getElem_set_self hlen
  · rw [if_neg h, if_neg h]

theorem getD_zeroCorrectStep_ne (xs : List ℚ) (i j : ℕ) (hij : i ≠ j) :
    (zeroCorrectStep xs i).getD j 0 = xs.getD j 0 := by
  unfold zeroCorrectStep
  split
  · rw [List.getD_eq_getElem?_getD, List.getD_eq_getElem?_getD, List.getElem?_set,
      if_neg hij]
  · rfl

theorem length_foldl_zeroCorrectStep (xs : List ℚ) (n : ℕ) :
    ((List.range n).foldl zeroCorrectStep xs).length = xs.length := by
  induction n with
  | zero => rfl
  | succ m ih =>
    rw [List.range_succ, List.foldl_append]
    simp only [List.foldl_cons, List.foldl_nil]
    rw [length_zeroCorrectStep, ih]

theorem getD_foldl_zeroCorrectStep (xs : List ℚ) (n j : ℕ) :
    ((List.range n).foldl zeroCorrectStep xs).getD j 0
      = if j < n ∧ j < xs.length ∧ xs.getD j 0 = 0 then 1 else xs.getD j 0 := by
  induction n with
  | zero => simp
  | succ m ih =>
    rw [List.range_succ, List.foldl_append]
    simp only [List.foldl_cons, List.foldl_nil]
    have hLlen : ((List.range m).foldl zeroCorrectStep xs).length = xs.length :=
      length_foldl_zeroCorrectStep xs m
    by_cases hjm : j = m
    · subst hjm
      have hself : ((List.range j).foldl zeroCorrectStep xs).getD j 0 = xs.getD j 0 := by
        rw [ih]
        simp
      by_cases hin : j < xs.length
      · rw [getD_zeroCorrectStep_self _ _ (by omega), hself]
        by_cases h0 : xs.getD j 0 = 0
        · rw [if_pos h0, if_pos ⟨Nat.lt_succ_self j, hin, h0⟩]
        · rw [if_neg h0, if_neg (fun hc => h0 hc.2.2)]
      · rw [zeroCorrectStep_oob _ _ (by omega), hself,
          if_neg (fun hc => hin hc.2.1)]
    · rw [getD_zeroCorrectStep_ne _ _ _ (fun hc => hjm hc.symm), ih]
      by_cases hrest : j < xs.length ∧ xs.getD j 0 = 0
      · by_cases hjn : j < m
        · rw [if_pos ⟨hjn, hrest⟩, if_pos ⟨by omega, hrest⟩]
        · have hjn1 : ¬j < m + 1 := by omega
          rw [if_neg (fun hc => hjn hc.1), if_neg (fun hc => hjn1 hc.1)]
      · rw [if_neg (fun hc => hrest ⟨hc.2.1, hc.2.2⟩),
          if_neg (fun hc => hrest ⟨hc.2.1, hc.2.2⟩)]

theorem foldl_zeroCorrectStep_eq_zeroCorrect (xs : List ℚ) (n : ℕ)
    (hn : xs.length ≤ n) :
    (List.range n).foldl zeroCorrectStep xs = zeroCorrect xs := by
  apply List.ext_getElem
  · rw [length_foldl_zeroCorrectStep]
    simp [zeroCorrect]
  · intro j h1 h2
    have hj : j < xs.length := by
      have := length_foldl_zeroCorrectStep xs n
      omega
    have hgd := getD_foldl_zeroCorrectStep xs n j
    rw [← List.getD_eq_getElem _ 0 h1, hgd]
    have hmap : (zeroCorrect xs)[j] = if xs[j] = 0 then 1 else xs[j] := by
      unfold zeroCorrect
      rw [List.getElem_map]
    rw [hmap]
    by_cases h0 : xs.getD j 0 = 0
    · rw [if_pos ⟨by omega, hj, h0⟩]
      rw [List.getD_eq_getElem _ _ hj] at h0
      rw [if_pos h0]
    · rw [if_neg (fun hc => h0 hc.2.2)]
      rw [List.getD_eq_getElem _ _ hj] at h0 ⊢
      rw [if_neg h0]

theorem correct0s_eq (LGs GLs : List ℚ) (hlen : GLs.length = LGs.length) :
    correct0s LGs GLs = (zeroCorrect LGs, zeroCorrect GLs) := by
  unfold correct0s
  rw [foldl_pair_independent]
  rw [foldl_zeroCorrectStep_eq_zeroCorrect LGs LGs.length le_rfl,
    foldl_zeroCorrectStep_eq_zeroCorrect GLs LGs.length (le_of_eq hlen)]

theorem mean_replicate (count : ℕ) (v : ℚ) (hc : count ≠ 0) :
    mean (List.replicate count v) = v := by
  unfold mean
  rw [List.sum_replicate, List.length_replicate, nsmul_eq_mul]
  rw [mul_div_assoc]
  field_simp

theorem popVar_replicate (count : ℕ) (v : ℚ) (hc : count ≠ 0) :
    popVar (List.replicate count v) = 0 := by
  unfold popVar
  rw [mean_replicate count v hc, List.map_replicate]
  simp [mean]

theorem sem_replicate (count : ℕ) (v : ℚ) (hc : count ≠ 0) :
    sem (List.replicate count v) count = 0 := by
  unfold sem npStd
  rw [popVar_replicate count v hc]
  simp

theorem sum4_statStep (p : List Char) (acc : ℕ × ℕ × ℕ × ℕ) (i : ℕ) :
    sum4 (statStep p acc i) =
      sum4 acc + pairTally (p.getD i ' ') (p.getD (i + 1) ' ') := by
  simp only [statStep, sum4, pairTally]
  ring

theorem sum4_foldl_statStep (p : List Char) (l : List ℕ) (acc : ℕ × ℕ × ℕ × ℕ) :
    sum4 (l.foldl (statStep p) acc) =
      sum4 acc + (l.map fun i => pairTally (p.getD i ' ') (p.getD (i + 1) ' ')).sum := by
  induction l generalizing acc with
  | nil => simp
  | cons x xs ih =>
    simp only [List.foldl_cons, List.map_cons, List.sum_cons, ih, sum4_statStep]
    ring

theorem pairTally_le_one (a b : Char) : pairTally a b ≤ 1 := by
  have hGL : ('G' : Char) ≠ 'L' := by decide
  unfold pairTally
  by_cases ha : a = 'G' <;> by_cases hb : b = 'G' <;>
    by_cases ha' : a = 'L' <;> by_cases hb' : b = 'L' <;>
      simp_all

theorem pairTally_eq_one (a b : Char) (ha : a = 'G' ∨ a = 'L')
    (hb : b = 'G' ∨ b = 'L') : pairTally a b = 1 := by
  rcases ha with ha | ha <;> rcases hb with hb | hb <;> subst ha <;> subst hb <;> decide

theorem pairTally_getD_one (p : List Char) (halpha : ∀ c ∈ p, c = 'G' ∨ c = 'L') :
    ∀ i ∈ List.range (p.length - 1),
      pairTally (p.getD i ' ') (p.getD (i + 1) ' ') = 1 := by
  intro i hi
  rw [List.mem_range] at hi
  have hi1 : i + 1 < p.length := by omega
  have hi0 : i < p.length := by omega
  apply pairTally_eq_one
  · have := List.getD_eq_getElem p ' ' hi0
    rw [this]
    exact halpha _ (List.getElem_mem hi0)
  · have := List.getD_eq_getElem p ' ' hi1
    rw [this]
    exact halpha _ (List.getElem_mem hi1)

theorem sum4_calc_stats_eq (p : List Char)
    (halpha : ∀ c ∈ p, c = 'G' ∨ c = 'L') :
    sum4 (calc_stats p) = p.length - 1 := by
  unfold calc_stats
  rw [sum4_foldl_statStep]
  have hmem := pairTally_getD_one p halpha
  calc sum4 (0, 0, 0, 0)
        + ((List.range (p.length - 1)).map
            fun i => pairTally (p.getD i ' ') (p.getD (i + 1) ' ')).sum
      = ((List.range (p.length - 1)).map fun _ => 1).sum := by
        rw [List.map_congr_left hmem]; simp [sum4]
    _ = p.length - 1 := by simp [List.map_const]

theorem sum4_calc_stats_le (p : List Char) :
    sum4 (calc_stats p) ≤ p.length - 1 := by
  unfold calc_stats
  rw [sum4_foldl_statStep]
  have : ((List.range (p.length - 1)).map
      fun i => pairTally (p.getD i ' ') (p.getD (i + 1) ' ')).sum
      ≤ ((List.range (p.length - 1)).map fun _ => 1).sum := by
    apply List.sum_le_sum
    intro i _
    exact pairTally_le_one _ _
  calc sum4 (0, 0, 0, 0)
        + ((List.range (p.length - 1)).map
            fun i => pairTally (p.getD i ' ') (p.getD (i + 1) ' ')).sum
      ≤ ((List.range (p.length - 1)).map fun _ => 1).sum := by
        simpa [sum4] using this
    _ = p.length - 1 := by simp [List.map_const]

theorem genChars_succ (n : ℕ) (dimers : Bool) (pos : ℕ → Bool) :
    genChars (n + 1) dimers pos =
      genChars n dimers pos ++
        (if dimers then (if pos n then ['G', 'G'] else ['L', 'L'])
         else (if pos n then ['G'] else ['L'])) := by
  unfold genChars
  rw [List.range_succ, List.flatMap_append]
  simp

theorem length_genChars (n : ℕ) (dimers : Bool) (pos : ℕ → Bool) :
    (genChars n dimers pos).length = (if dimers then 2 * n else n) := by
  induction n with
  | zero => simp [genChars]
  | succ m ih =>
    rw [genChars_succ, List.length_append, ih]
    cases dimers <;> cases pos m <;> simp <;> ring

theorem mem_genChars (n : ℕ) (dimers : Bool) (pos : ℕ → Bool) :
    ∀ c ∈ genChars n dimers pos, c = 'G' ∨ c = 'L' := by
  intro c hc
  unfold genChars at hc
  rw [List.mem_flatMap] at hc
  obtain ⟨i, _, hci⟩ := hc
  cases dimers <;> by_cases hpi : pos i = true <;> simp [hpi] at hci <;> simp [hci]

theorem count_genChars (n : ℕ) (dimers : Bool) (pos : ℕ → Bool) :
    (genChars n dimers pos).count 'G'
        = (if dimers then 2 else 1) * (List.range n).countP pos
      ∧ (genChars n dimers pos).count 'L'
        = (if dimers then 2 else 1) * (n - (List.range n).countP pos) := by
  induction n with
  | zero => simp [genChars]
  | succ m ih =>
    have hle : (List.range m).countP pos ≤ m := by
      simpa using List.countP_le_length (l := List.range m) (p := pos)
    rw [genChars_succ, List.count_append, List.count_append,
      List.range_succ, List.countP_append, ih.1, ih.2]
    constructor
    · cases dimers <;> cases hpm : pos m <;> simp [hpm] <;> ring
    · cases dimers <;> cases hpm : pos m <;> simp [hpm] <;> omega

theorem getD_genChars_dimer (n : ℕ) (pos : ℕ → Bool) (k : ℕ) (hk : k < n) :
    (genChars n true pos).getD (2 * k) ' ' = (if pos k then 'G' else 'L')
      ∧ (genChars n true pos).getD (2 * k + 1) ' ' = (if pos k then 'G' else 'L') := by
  induction n with
  | zero => omega
  | succ m ih =>
    rw [genChars_succ]
    have hlen : (genChars m true pos).length = 2 * m := by
      simpa using length_genChars m true pos
    rcases Nat.lt_or_ge k m with hkm | hkm
    · have h1 : 2 * k < (genChars m true pos).length := by omega
      have h2 : 2 * k + 1 < (genChars m true pos).length := by omega
      rw [List.getD_append _ _ _ _ h1, List.getD_append _ _ _ _ h2]
      exact ih hkm
    · have hkeq : k = m := by omega
      subst hkeq
      have e0 : 2 * k - (genChars k true pos).length = 0 := by omega
      have e1 : 2 * k + 1 - (genChars k true pos).length = 1 := by omega
      rw [List.getD_append_right _ _ _ _ (by omega), List.getD_append_right _ _ _ _ (by omega),
        e0, e1]
      by_cases hp : pos k = true <;> simp [hp]

theorem pyTrunc_of_nonneg {q : ℚ} (h : 0 ≤ q) : pyTrunc q = ⌊q⌋ := if_pos h

theorem gen_fixed_ok (n : ℕ) (gProb : ℚ) (dimers : Bool) (gIdx : List ℕ) (coins : ℕ → ℚ)
    (h0 : 0 ≤ gProb) (h1 : gProb ≤ 1) :
    gen n gProb true dimers gIdx coins =
      Except.ok (genChars (if dimers then n / 2 else n) dimers
        fun i => decide (i ∈ gIdx)) := by
  unfold gen
  set m := if dimers then n / 2 else n with hm
  have hq0 : (0 : ℚ) ≤ (m : ℚ) * gProb := mul_nonneg (Nat.cast_nonneg m) h0
  have hk0 : 0 ≤ pyTrunc ((m : ℚ) * gProb) := by
    rw [pyTrunc_of_nonneg hq0]
    exact Int.floor_nonneg.mpr hq0
  have hkle : (pyTrunc ((m : ℚ) * gProb)).toNat ≤ m := by
    rw [pyTrunc_of_nonneg hq0, Int.toNat_le]
    calc ⌊(m : ℚ) * gProb⌋ ≤ ⌊(m : ℚ)⌋ :=
          Int.floor_le_floor (mul_le_of_le_one_right (Nat.cast_nonneg m) h1)
      _ = (m : ℤ) := Int.floor_natCast m
  simp only [↓reduceIte, hm]
  rw [if_pos ⟨hk0, hkle⟩]

theorem gen_bern_ok (n : ℕ) (gProb : ℚ) (dimers : Bool) (gIdx : List ℕ) (coins : ℕ → ℚ) :
    gen n gProb false dimers gIdx coins =
      Except.ok (genChars (if dimers then n / 2 else n) dimers
        fun i => decide (coins i < gProb)) := rfl

theorem gen_ok_shape (n : ℕ) (gProb : ℚ) (fixed dimers : Bool) (gIdx : List ℕ)
    (coins : ℕ → ℚ) (s : List Char)
    (h : gen n gProb fixed dimers gIdx coins = Except.ok s) :
    ∃ pos : ℕ → Bool, s = genChars (if dimers then n / 2 else n) dimers pos := by
  cases fixed with
  | false =>
    simp only [gen, Bool.false_eq_true, if_false, Except.ok.injEq] at h
    exact ⟨_, h.symm⟩
  | true =>
    simp only [gen, if_true] at h
    generalize hm : (if dimers = true then n / 2 else n) = m at h ⊢
    split at h
    · exact ⟨_, (Except.ok.inj h).symm⟩
    · cases h

theorem countP_mem_range (n : ℕ) (gIdx : List ℕ) (hnd : gIdx.Nodup)
    (hlt : ∀ i ∈ gIdx, i < n) :
    (List.range n).countP (fun i => decide (i ∈ gIdx)) = gIdx.length := by
  rw [List.countP_eq_length_filter]
  have hperm : ((List.range n).filter fun i => decide (i ∈ gIdx)).Perm gIdx := by
    rw [List.perm_ext_iff_of_nodup (List.Nodup.filter _ (List.nodup_range n)) hnd]
    intro a
    simp only [List.mem_filter, List.mem_range, decide_eq_true_eq]
    exact ⟨fun h => h.2, fun h => ⟨hlt a h, h⟩⟩
  exact hperm.length_eq

/-! Claim theorems. -/

/-- C1: for every polymer over the alphabet \x7bG, L\x7d, `calc_stats` returns
four non-negative counts summing to exactly `length - 1`, each adjacent pair
`(i, i+1)` being counted in exactly one of the four ordered categories, and
for `length ≤ 1` all four counts are 0. -/
theorem calc_stats_pair_partition (p : List Char)
    (halpha : ∀ c ∈ p, c = 'G' ∨ c = 'L') :
    sum4 (calc_stats p) = p.length - 1
      ∧ (∀ i ∈ List.range (p.length - 1),
          pairTally (p.getD i ' ') (p.getD (i + 1) ' ') = 1)
      ∧ (p.length ≤ 1 → calc_stats p = (0, 0, 0, 0)) := by
  refine ⟨sum4_calc_stats_eq p halpha, pairTally_getD_one p halpha, ?_⟩
  intro hlen
  unfold calc_stats
  have h0 : p.length - 1 = 0 := by omega
  rw [h0]
  rfl

theorem calc_stats_pair_partition_witness :
    sum4 (calc_stats ['G', 'G', 'L']) = ['G', 'G', 'L'].length - 1
      ∧ calc_stats ['G'] = (0, 0, 0, 0) :=
  ⟨(calc_stats_pair_partition ['G', 'G', 'L'] (by decide)).1,
    (calc_stats_pair_partition ['G'] (by decide)).2.2 (by decide)⟩

/-- C2: `calc_ratio` raises DivisionByZero iff the polymer has zero L
symbols, and otherwise returns the exact quotient
`count(G) / count(L)` (float division modelled exactly over ℚ). -/
theorem calc_ratio_divzero_iff (p : List Char) :
    (calc_ratio p = Except.error RatioError.divisionByZero ↔ p.count 'L' = 0)
      ∧ (p.count 'L' ≠ 0 →
          calc_ratio p = Except.ok ((p.count 'G' : ℚ) / (p.count 'L' : ℚ))) := by
  unfold calc_ratio
  by_cases h : p.count 'L' = 0
  · rw [if_pos h]
    refine ⟨?_, fun hne => absurd h hne⟩
    constructor
    · intro hx
      exact h
    · intro hx
      rfl
  · rw [if_neg h]
    refine ⟨?_, fun hx => rfl⟩
    constructor
    · intro hcon
      cases hcon
    · intro hc
      exact absurd hc h

theorem calc_ratio_divzero_iff_witness :
    calc_ratio [] = Except.error RatioError.divisionByZero
      ∧ calc_ratio ['G', 'G', 'G'] = Except.error RatioError.divisionByZero
      ∧ calc_ratio ['G', 'G', 'L'] = Except.ok 2 := by
  refine ⟨(calc_ratio_divzero_iff []).1.mpr (by decide),
    (calc_ratio_divzero_iff ['G', 'G', 'G']).1.mpr (by decide), ?_⟩
  have h := (calc_ratio_divzero_iff ['G', 'G', 'L']).2 (by decide)
  have hg : ['G', 'G', 'L'].count 'G' = 2 := by decide
  have hl : ['G', 'G', 'L'].count 'L' = 1 := by decide
  rw [h, hg, hl]
  norm_num

/-- C3 counterexample: on the 48-character fixture string, `calc_stats` does
not return (GG=3, LL=30, GL=7, LG=7). -/
theorem calc_stats_golden_fixture_counterexample :
    calc_stats "LLGLLLGLLLLLGLGLLLLLLLLLLGLLLLLGLGGGGLLGLLLLGLLL".toList
      ≠ (3, 30, 7, 7) := by
  decide

/-- C3 amended: on the 48-character fixture string, `calc_stats` returns
(GG=3, LL=26, GL=9, LG=9). -/
theorem calc_stats_golden_fixture_actual :
    calc_stats "LLGLLLGLLLLLGLGLLLLLLLLLLGLLLLLGLGGGGLLGLLLLGLLL".toList
      = (3, 26, 9, 9) := by
  decide

/-- C9: the mean of N ≥ 2 identical trial results equals that value and their
SEM (np.std divided by sqrt(N-1)) equals 0. -/
theorem mean_sem_identical_batch (count : ℕ) (v : ℚ) (h2 : 2 ≤ count) :
    mean (List.replicate count v) = v ∧ sem (List.replicate count v) count = 0 :=
  ⟨mean_replicate count v (by omega), sem_replicate count v (by omega)⟩

theorem mean_sem_identical_batch_witness :
    mean (List.replicate 3 (5 : ℚ)) = 5 ∧ sem (List.replicate 3 (5 : ℚ)) 3 = 0 :=
  mean_sem_identical_batch 3 5 (by norm_num)

/-- C10: `calc_stats` is total on arbitrary strings: its scan touches only
in-bounds indices `i` and `i+1` below the length, a pair with a character
outside \x7bG, L\x7d is counted in no category, and the four counts sum to at
most `length - 1`. -/
theorem calc_stats_total_safe (p : List Char) :
    sum4 (calc_stats p) ≤ p.length - 1
      ∧ (∀ i ∈ List.range (p.length - 1), i < p.length ∧ i + 1 < p.length)
      ∧ (∀ a b : Char, ¬(a = 'G' ∨ a = 'L') ∨ ¬(b = 'G' ∨ b = 'L') →
          pairTally a b = 0) := by
  refine ⟨sum4_calc_stats_le p, ?_, ?_⟩
  · intro i hi
    rw [List.mem_range] at hi
    omega
  · intro a b hab
    unfold pairTally
    rcases hab with ha | hb
    · push_neg at ha
      simp [ha.1, ha.2]
    · push_neg at hb
      simp [hb.1, hb.2]

theorem calc_stats_total_safe_witness :
    sum4 (calc_stats ['G', 'X', 'L']) ≤ ['G', 'X', 'L'].length - 1
      ∧ pairTally 'X' 'L' = 0 :=
  ⟨(calc_stats_total_safe ['G', 'X', 'L']).1,
    (calc_stats_total_safe ['G', 'X', 'L']).2.2 'X' 'L' (Or.inl (by decide))⟩

theorem genChars_all_true (n : ℕ) (pos : ℕ → Bool) (hp : ∀ i, pos i = true) :
    genChars n false pos = List.replicate n 'G' := by
  rw [List.eq_replicate_iff]
  constructor
  · simpa using length_genChars n false pos
  · intro b hb
    unfold genChars at hb
    rw [List.mem_flatMap] at hb
    obtain ⟨i, _, hbi⟩ := hb
    simp [hp i] at hbi
    exact hbi

/-- C4: with `fixed_count = true` and a probability in [0,1], every random
draw yields a polymer with exactly `int(unit_count * g_prob)` G-units and
all remaining units L-units; `g_probability = 1` gives an all-G output and
`g_probability = 0` an all-L output. -/
theorem gen_fixed_exact_gcount (n : ℕ) (gProb : ℚ) (dimers : Bool)
    (gIdx : List ℕ) (coins : ℕ → ℚ) (h0 : 0 ≤ gProb) (h1 : gProb ≤ 1)
    (hnd : gIdx.Nodup)
    (hlt : ∀ i ∈ gIdx, i < (if dimers then n / 2 else n))
    (hcard : gIdx.length
      = (pyTrunc ((((if dimers then n / 2 else n) : ℕ) : ℚ) * gProb)).toNat) :
    ∃ s, gen n gProb true dimers gIdx coins = Except.ok s
      ∧ s.count 'G' = (if dimers then 2 else 1)
          * (pyTrunc ((((if dimers then n / 2 else n) : ℕ) : ℚ) * gProb)).toNat
      ∧ s.count 'L' = (if dimers then 2 else 1)
          * ((if dimers then n / 2 else n)
              - (pyTrunc ((((if dimers then n / 2 else n) : ℕ) : ℚ) * gProb)).toNat)
      ∧ (gProb = 1 → ∀ c ∈ s, c = 'G')
      ∧ (gProb = 0 → ∀ c ∈ s, c = 'L') := by
  refine ⟨_, gen_fixed_ok n gProb dimers gIdx coins h0 h1, ?_, ?_, ?_, ?_⟩
  all_goals
    have hcount := count_genChars (if dimers then n / 2 else n) dimers
      (fun i => decide (i ∈ gIdx))
    have hcp := countP_mem_range (if dimers then n / 2 else n) gIdx hnd hlt
  · rw [hcount.1, hcp, hcard]
  · rw [hcount.2, hcp, hcard]
  · intro hp1 c hcmem
    subst hp1
    have hnat : (pyTrunc ((((if dimers then n / 2 else n) : ℕ) : ℚ) * 1)).toNat
        = (if dimers then n / 2 else n) := by
      rw [mul_one, pyTrunc_of_nonneg (Nat.cast_nonneg _), Int.floor_natCast,
        Int.toNat_natCast]
    have hlencount : (genChars (if dimers then n / 2 else n) dimers
        (fun i => decide (i ∈ gIdx))).count 'G'
        = (genChars (if dimers then n / 2 else n) dimers
            (fun i => decide (i ∈ gIdx))).length := by
      rw [hcount.1, hcp, hcard, hnat, length_genChars]
      cases dimers <;> simp
    exact (List.count_eq_length.mp hlencount c hcmem).symm
  · intro hp0 c hcmem
    subst hp0
    have hnat : (pyTrunc ((((if dimers then n / 2 else n) : ℕ) : ℚ) * 0)).toNat = 0 := by
      rw [mul_zero, pyTrunc_of_nonneg le_rfl, Int.floor_zero, Int.toNat_zero]
    have hzero : (genChars (if dimers then n / 2 else n) dimers
        (fun i => decide (i ∈ gIdx))).count 'G' = 0 := by
      rw [hcount.1, hcp, hcard, hnat, mul_zero]
    have hnotG : 'G' ∉ genChars (if dimers then n / 2 else n) dimers
        (fun i => decide (i ∈ gIdx)) := List.count_eq_zero.mp hzero
    rcases mem_genChars _ _ _ c hcmem with hg | hl
    · exact absurd (hg ▸ hcmem) hnotG
    · exact hl

theorem gen_fixed_exact_gcount_witness :
    ∃ s, gen 4 (1 / 2) true false [0, 2] (fun j => 0) = Except.ok s
      ∧ s.count 'G' = (if false then 2 else 1)
          * (pyTrunc ((((if false then 4 / 2 else 4) : ℕ) : ℚ) * (1 / 2))).toNat
      ∧ s.count 'L' = (if false then 2 else 1)
          * ((if false then 4 / 2 else 4)
              - (pyTrunc ((((if false then 4 / 2 else 4) : ℕ) : ℚ) * (1 / 2))).toNat)
      ∧ ((1 : ℚ) / 2 = 1 → ∀ c ∈ s, c = 'G')
      ∧ ((1 : ℚ) / 2 = 0 → ∀ c ∈ s, c = 'L') :=
  gen_fixed_exact_gcount 4 (1 / 2) false [0, 2] (fun j => 0) (by norm_num)
    (by norm_num) (by decide) (by decide)
    (by
      show [0, 2].length = (pyTrunc (((4 : ℕ) : ℚ) * (1 / 2))).toNat
      have h2 : ((4 : ℕ) : ℚ) * (1 / 2) = ((2 : ℕ) : ℚ) := by norm_num
      rw [h2, pyTrunc_of_nonneg (by positivity), Int.floor_natCast,
        Int.toNat_natCast]
      rfl)

/-- C5: with a valid probability, generation always succeeds and the output
has length `n` in non-dimer mode and `2 * (n / 2)` in dimer mode, uses only
the alphabet \x7bG, L\x7d, and a requested length of 0 yields the empty
string. -/
theorem gen_length_and_alphabet (n : ℕ) (gProb : ℚ) (fixed dimers : Bool)
    (gIdx : List ℕ) (coins : ℕ → ℚ) (h0 : 0 ≤ gProb) (h1 : gProb ≤ 1) :
    ∃ s, gen n gProb fixed dimers gIdx coins = Except.ok s
      ∧ s.length = (if dimers then 2 * (n / 2) else n)
      ∧ (∀ c ∈ s, c = 'G' ∨ c = 'L')
      ∧ (n = 0 → s = []) := by
  have hgen : ∀ pos : ℕ → Bool,
      (genChars (if dimers then n / 2 else n) dimers pos).length
          = (if dimers then 2 * (n / 2) else n)
        ∧ (n = 0 → genChars (if dimers then n / 2 else n) dimers pos = []) := by
    intro pos
    constructor
    · rw [length_genChars]
      cases dimers <;> simp
    · intro hn
      subst hn
      cases dimers <;> rfl
  cases fixed with
  | true =>
    exact ⟨_, gen_fixed_ok n gProb dimers gIdx coins h0 h1, (hgen _).1,
      mem_genChars _ _ _, (hgen _).2⟩
  | false =>
    exact ⟨_, gen_bern_ok n gProb dimers gIdx coins, (hgen _).1,
      mem_genChars _ _ _, (hgen _).2⟩

theorem gen_length_and_alphabet_witness :
    ∃ s, gen 5 (1 / 4) true true [1] (fun j => 0) = Except.ok s
      ∧ s.length = (if true then 2 * (5 / 2) else 5)
      ∧ (∀ c ∈ s, c = 'G' ∨ c = 'L')
      ∧ (5 = 0 → s = []) :=
  gen_length_and_alphabet 5 (1 / 4) true true [1] (fun j => 0) (by norm_num)
    (by norm_num)

/-- C6: in dimer mode, every successfully generated polymer carries two
identical symbols at each position pair (2k, 2k+1) for k < unit_count —
each unit is GG or LL, never GL or LG. -/
theorem gen_dimer_identical_pairs (n : ℕ) (gProb : ℚ) (fixed : Bool)
    (gIdx : List ℕ) (coins : ℕ → ℚ) (s : List Char)
    (h : gen n gProb fixed true gIdx coins = Except.ok s) :
    ∀ k < n / 2, s.getD (2 * k) ' ' = s.getD (2 * k + 1) ' '
      ∧ (s.getD (2 * k) ' ' = 'G' ∨ s.getD (2 * k) ' ' = 'L') := by
  obtain ⟨pos, hs⟩ := gen_ok_shape n gProb fixed true gIdx coins s h
  intro k hk
  have hif : (if true then n / 2 else n) = n / 2 := rfl
  rw [hif] at hs
  subst hs
  have hd := getD_genChars_dimer (n / 2) pos k hk
  rw [hd.1, hd.2]
  by_cases hp : pos k = true <;> simp [hp]

theorem gen_dimer_identical_pairs_witness :
    (fun s => ∀ k < 5 / 2,
        s.getD (2 * k) ' ' = s.getD (2 * k + 1) ' '
          ∧ (s.getD (2 * k) ' ' = 'G' ∨ s.getD (2 * k) ' ' = 'L'))
      ['L', 'L', 'G', 'G'] :=
  gen_dimer_identical_pairs 5 (1 / 2) true [1] (fun j => 0) ['L', 'L', 'G', 'G']
    (by
      rw [gen_fixed_ok 5 (1 / 2) true [1] (fun j => 0) (by norm_num) (by norm_num)]
      congr 1)

/-- C7 counterexample: a configuration with g_probability = 3/2 (outside
[0,1]) and fixed_count = false is not rejected: generation silently
completes and returns an all-G polymer. -/
theorem gen_invalid_prob_counterexample :
    gen 3 (3 / 2) false false [] (fun j => 1 / 2) = Except.ok ['G', 'G', 'G'] := by
  rw [gen_bern_ok]
  have hif : (if false then 3 / 2 else 3) = 3 := rfl
  rw [hif]
  congr 1
  have hp : ∀ i : ℕ, (decide (((fun j : ℕ => (1 : ℚ) / 2) i) < 3 / 2)) = true := by
    intro i
    rw [decide_eq_true_eq]
    norm_num
  rw [genChars_all_true 3 _ hp]
  rfl

/-- C7 amended: the generator performs no configuration validation; with
`fixed_count = false` a probability ≥ 1 (outside the valid domain) is used
directly as the Bernoulli threshold and generation silently yields the
all-G string of the requested length, with no error raised before or
during generation. -/
theorem gen_bern_no_validation (n : ℕ) (gProb : ℚ) (gIdx : List ℕ)
    (coins : ℕ → ℚ) (h1 : 1 ≤ gProb) (hc : ∀ i, 0 ≤ coins i ∧ coins i < 1) :
    gen n gProb false false gIdx coins = Except.ok (List.replicate n 'G') := by
  rw [gen_bern_ok]
  have hif : (if false then n / 2 else n) = n := rfl
  rw [hif]
  congr 1
  apply genChars_all_true
  intro i
  simp only [decide_eq_true_eq]
  exact lt_of_lt_of_le (hc i).2 h1

theorem gen_bern_no_validation_witness :
    gen 2 (3 / 2) false false [] (fun j => 1 / 2)
      = Except.ok (List.replicate 2 'G') :=
  gen_bern_no_validation 2 (3 / 2) [] (fun j => 1 / 2) (by norm_num)
    (fun i => ⟨by norm_num, by norm_num⟩)

/-- C8: the aggregation's in-place zero-correction loop replaces every zero
entry of the LG and GL arrays with 1 (it equals the elementwise map the
spec describes), the derived metrics L_L, L_G, R_c are the elementwise
mean/SEM formulas over the corrected arrays, and the reported batch mean
of the per-sequence G:L ratios is unaffected by the correction. -/
theorem zero_correction_metrics (GGs LLs GLs LGs ratios : List ℚ) (count : ℕ)
    (hlen : GLs.length = LGs.length) :
    otherMetrics GGs LLs GLs LGs ratios count
        = otherMetricsSpec GGs LLs GLs LGs ratios count
      ∧ correct0s LGs GLs = (zeroCorrect LGs, zeroCorrect GLs)
      ∧ (otherMetrics GGs LLs GLs LGs ratios count).2.2.2 = mean ratios := by
  have hc := correct0s_eq LGs GLs hlen
  refine ⟨?_, hc, rfl⟩
  unfold otherMetrics otherMetricsSpec
  rw [hc]

theorem zero_correction_metrics_witness :
    otherMetrics [1, 2] [3, 4] [0, 5] [6, 0] [7, 8] 2
        = otherMetricsSpec [1, 2] [3, 4] [0, 5] [6, 0] [7, 8] 2
      ∧ correct0s [6, 0] [0, 5] = (zeroCorrect [6, 0], zeroCorrect [0, 5])
      ∧ (otherMetrics [1, 2] [3, 4] [0, 5] [6, 0] [7, 8] 2).2.2.2 = mean [7, 8] :=
  zero_correction_metrics [1, 2] [3, 4] [0, 5] [6, 0] [7, 8] 2 rfl
